import Mathlib

/-! # Registry (`registry.h`): a key/value configuration store

Shallow embedding of `src/registry.h`.

* A `char` is a `Char`; a `std::string` is the list of its chars (`StdString`).
  A `const char *` argument is represented by the chars before its terminator.
* `std::map<std::string, std::string>` is an association list kept in strictly
  ascending key order (`StdMap`), the order in which the map is iterated.
* The global `kv_pairs` is passed explicitly to every operation, and every
  operation returns the map it leaves behind.
* The file system is a function from path to the contents of the file that can
  be opened for reading at that path, as seen through a text-mode stream.
* For writing, the files on disk are a function from path to contents
  (`Disk`); which paths can be opened for writing, and which for reading, is
  given by two predicates of the environment.
* `registry_mutex` is not modelled: each operation is a sequential function.
-/

namespace Registry

/-! ## Strings -/

/-- A `std::string`: its sequence of chars. -/
abbrev StdString := List Char

/-- The `operator<` of `std::string`: lexicographic comparison, char by char,
a proper prefix being smaller. -/
def string_less : StdString → StdString → Bool
  | [], [] => false
  | [], _ :: _ => true
  | _ :: _, [] => false
  | a :: as, b :: bs =>
    if a.toNat < b.toNat then true
    else if b.toNat < a.toNat then false
    else string_less as bs

/-- `s.find_first_not_of(t)`: index of the first char of `s` that is not in `t`;
`none` stands for `npos`. -/
def find_first_not_of : StdString → StdString → Option Nat
  | [], _ => none
  | c :: cs, t =>
    if c ∈ t then (find_first_not_of cs t).map (· + 1) else some 0

/-- `s.find_last_not_of(t)`: index of the last char of `s` that is not in `t`;
`none` stands for `npos`. -/
def find_last_not_of : StdString → StdString → Option Nat
  | [], _ => none
  | c :: cs, t =>
    match find_last_not_of cs t with
    | some p => some (p + 1)
    | none => if c ∈ t then none else some 0

/-- `s.find_last_of(ch)`: index of the last occurrence of `ch` in `s`;
`none` stands for `npos`. -/
def find_last_of : StdString → Char → Option Nat
  | [], _ => none
  | c :: cs, ch =>
    match find_last_of cs ch with
    | some p => some (p + 1)
    | none => if c = ch then some 0 else none

/-- `s.erase(index, count)`: removes `min(count, size - index)` chars from
`index` on; `count = none` stands for `npos` (erase to the end). -/
def erase (s : StdString) (index : Nat) (count : Option Nat) : StdString :=
  match count with
  | none => s.take index
  | some n => s.take index ++ s.drop (index + n)

/-- `s.c_str()` read back as a C string: the chars before the first NUL. -/
def c_str (s : StdString) : StdString :=
  s.takeWhile (fun c => c ≠ '\x00')

/-- The default second argument of `TrimString`: `" \t\n\r\f\v"`. -/
def whitespace : StdString := [' ', '\t', '\n', '\r', '\x0c', '\x0b']

/-- `TrimString(s, t)`, registry.h:60-63.
`s.erase(0, s.find_first_not_of(t)); s.erase(s.find_last_not_of(t) + 1);`
where `npos + 1` wraps to `0`. -/
def TrimString (s : StdString) (t : StdString := whitespace) : StdString :=
  let s := erase s 0 (find_first_not_of s t)
  let index := match find_last_not_of s t with
    | some p => p + 1
    | none => 0
  erase s index none

/-- `std::getline(is, str, delim)` on the unread rest `is` of a stream: fails
(`none`) when nothing is left to read; otherwise yields the chars before the
next `delim` (or up to the end) and the rest of the stream after that `delim`. -/
def getline (is : StdString) (delim : Char) : Option (StdString × StdString) :=
  match is with
  | [] => none
  | _ :: _ => some (is.takeWhile (fun c => c ≠ delim), (is.dropWhile (fun c => c ≠ delim)).drop 1)

/-- The `while (std::getline(ss, item, delim))` loop of `SplitString`; the first
argument bounds the number of iterations. -/
def SplitStringLoop : Nat → StdString → Char → List StdString → List StdString
  | 0, _, _, result => result
  | fuel + 1, ss, delim, result =>
    match getline ss delim with
    | none => result
    | some (item, ss') =>
      SplitStringLoop fuel ss' delim (if item.length ≠ 0 then result ++ [item] else result)

/-- `SplitString(s, delim, result)`, registry.h:65-73. Each iteration consumes
at least one char of `s`, so `s.length + 1` iterations always reach the end. -/
def SplitString (s : StdString) (delim : Char) (result : List StdString) : List StdString :=
  SplitStringLoop (s.length + 1) s delim result

/-- `RemoveComments(line)`, registry.h:85-90. -/
def RemoveComments (line : StdString) : StdString :=
  match find_last_of line ';' with
  | some pos => erase line pos (some (line.length - pos))
  | none => line

/-! ## Numbers and text -/

/-- `INT_MIN` of a 32-bit `int`. -/
def INT_MIN : Int := -2147483648

/-- `INT_MAX` of a 32-bit `int`. -/
def INT_MAX : Int := 2147483647

/-- `std::to_string(int)`: the decimal digits, after a `-` for a negative value. -/
def to_string (value : Int) : StdString :=
  if value < 0 then '-' :: Nat.toDigits 10 value.natAbs else Nat.toDigits 10 value.natAbs

/-- `isspace` in the "C" locale. -/
def isspace (c : Char) : Bool :=
  c = ' ' || c = '\t' || c = '\n' || c = '\x0b' || c = '\x0c' || c = '\r'

/-- `isdigit`. -/
def isdigit (c : Char) : Bool :=
  decide (48 ≤ c.toNat) && decide (c.toNat ≤ 57)

/-- The digit loop of `atoi`: accumulates decimal digits up to the first char
that is not one. -/
def atoi_digits : Nat → StdString → Nat
  | acc, [] => acc
  | acc, c :: cs => if isdigit c then atoi_digits (acc * 10 + (c.toNat - 48)) cs else acc

/-- The integer that `atoi` reads: leading white space is skipped, then an
optional sign, then decimal digits up to the first char that is not one. -/
def atoi_value (s : StdString) : Int :=
  match s.dropWhile isspace with
  | '-' :: cs => - (atoi_digits 0 cs : Int)
  | '+' :: cs => (atoi_digits 0 cs : Int)
  | cs => (atoi_digits 0 cs : Int)

/-- `atoi(s)`: `none` when the value read is not representable in an `int`
(the behaviour is then undefined). -/
def atoi (s : StdString) : Option Int :=
  let n := atoi_value s
  if INT_MIN ≤ n ∧ n ≤ INT_MAX then some n else none

/-- The exceptions thrown by `std::stof` and `std::stod`. -/
inductive StdException where
  | invalid_argument
  | out_of_range
  deriving DecidableEq, Repr

/-! ## The map -/

/-- A `std::map<std::string, std::string>`: its entries in iteration order. -/
abbrev StdMap := List (StdString × StdString)

/-- `m.find(key)`; `none` stands for `m.end()`. The search uses only the
comparison of the map, as `std::map` does. -/
def StdMap.find : StdMap → StdString → Option StdString
  | [], _ => none
  | (k, v) :: rest, key =>
    if string_less k key then StdMap.find rest key
    else if string_less key k then none
    else some v

/-- `m[key] = value`: inserts the entry at its place in key order, or
overwrites the value of the entry with an equivalent key. -/
def StdMap.assign : StdMap → StdString → StdString → StdMap
  | [], key, value => [(key, value)]
  | (k, v) :: rest, key, value =>
    if string_less k key then (k, v) :: StdMap.assign rest key value
    else if string_less key k then (key, value) :: (k, v) :: rest
    else (k, value) :: rest

/-! ## Files -/

/-- The files that can be opened for reading: path to contents. -/
abbrev FileSystem := StdString → Option StdString

/-- What `std::ifstream in(name)` delivers to `std::getline`: the contents of
the file, or nothing at all when the file could not be opened (every read of
a stream that failed to open fails). -/
def ifstream (fs : FileSystem) (name : StdString) : StdString :=
  match fs name with
  | some contents => contents
  | none => []

/-- `FileExists(name)`, registry.h:75-78: `std::ifstream f(name); return f.good();` -/
def FileExists (fs : FileSystem) (name : StdString) : Bool :=
  (fs name).isSome

/-- The files on disk: path to the contents of the file there, if there is one. -/
abbrev Disk := StdString → Option StdString

/-- The body of the `while` loop of `RegLoad`, registry.h:104-118, on one line. -/
def RegLoadLine (kv_pairs : StdMap) (line : StdString) : StdMap :=
  let line := RemoveComments line
  let line := TrimString line
  let tokens := SplitString line ' ' []
  if tokens.length > 1 then
    let value := (tokens.drop 1).foldl (fun value token => value ++ token) []
    kv_pairs.assign (tokens.headD []) value
  else kv_pairs

/-- The `while (std::getline(in, line))` loop of `RegLoad`; the first argument
bounds the number of iterations. -/
def RegLoadLoop : Nat → StdString → StdMap → StdMap
  | 0, _, kv_pairs => kv_pairs
  | fuel + 1, in_, kv_pairs =>
    match getline in_ '\n' with
    | none => kv_pairs
    | some (line, rest) => RegLoadLoop fuel rest (RegLoadLine kv_pairs line)

/-- `RegLoad(file_name)`, registry.h:94-125: the returned flag and the map
afterwards. Each iteration of the loop consumes at least one char of the
stream, so `length + 1` iterations always reach its end. -/
def RegLoad (fs : FileSystem) (kv_pairs : StdMap) (file_name : StdString) : Bool × StdMap :=
  if FileExists fs file_name then
    let in_ := ifstream fs "config.txt".toList
    let kv_pairs : StdMap := []
    (true, RegLoadLoop (in_.length + 1) in_ kv_pairs)
  else
    (false, kv_pairs)

/-- `RegSetString(name, value)`, registry.h:138-142. -/
def RegSetString (kv_pairs : StdMap) (name value : StdString) : StdMap :=
  kv_pairs.assign name value

/-- `RegSetInt32(name, value)`, registry.h:144-148. -/
def RegSetInt32 (kv_pairs : StdMap) (name : StdString) (value : Int) : StdMap :=
  kv_pairs.assign name (to_string value)

/-- `RegGetString(name, default_value)`, registry.h:162-170: the returned
string and the map afterwards. -/
def RegGetString (kv_pairs : StdMap) (name default_value : StdString) : StdString × StdMap :=
  match kv_pairs.find name with
  | some value => (value, kv_pairs)
  | none => (default_value, kv_pairs)

/-- `RegGetInt32(name, default_value)`, registry.h:172-181: the returned `int`
(`none` when `atoi` has no defined result) and the map afterwards. -/
def RegGetInt32 (kv_pairs : StdMap) (name : StdString) (default_value : Int) :
    Option Int × StdMap :=
  match kv_pairs.find name with
  | some value => (atoi (c_str value), kv_pairs)
  | none => (some default_value, kv_pairs)

/-- `RegGetFloat32(name, default_value)`, registry.h:183-192, over any type `F`
of `float` values and any `std::stof`: the returned `float` or the exception
thrown, and the map afterwards. -/
def RegGetFloat32 {F : Type} (stof : StdString → Except StdException F)
    (kv_pairs : StdMap) (name : StdString) (default_value : F) :
    Except StdException F × StdMap :=
  match kv_pairs.find name with
  | some value => (stof (c_str value), kv_pairs)
  | none => (Except.ok default_value, kv_pairs)

/-- `RegGetFloat64(name, default_value)`, registry.h:194-203, over any type `F`
of `double` values and any `std::stod`: the returned `double` or the exception
thrown, and the map afterwards. -/
def RegGetFloat64 {F : Type} (stod : StdString → Except StdException F)
    (kv_pairs : StdMap) (name : StdString) (default_value : F) :
    Except StdException F × StdMap :=
  match kv_pairs.find name with
  | some value => (stod (c_str value), kv_pairs)
  | none => (Except.ok default_value, kv_pairs)

/-- `RegSetFloat32(name, value)`, registry.h:150-154, over any type `F` of
`float` values and any `std::to_string(float)`. -/
def RegSetFloat32 {F : Type} (to_string_float : F → StdString)
    (kv_pairs : StdMap) (name : StdString) (value : F) : StdMap :=
  kv_pairs.assign name (to_string_float value)

/-- `RegSetFloat64(name, value)`, registry.h:156-160, over any type `F` of
`double` values and any `std::to_string(double)`. -/
def RegSetFloat64 {F : Type} (to_string_double : F → StdString)
    (kv_pairs : StdMap) (name : StdString) (value : F) : StdMap :=
  kv_pairs.assign name (to_string_double value)

/-- One iteration of the loop of `RegSave`, registry.h:131-134:
`std::ofstream f; f.open(file_name); f << pair.first << " " << pair.second << "\n";`
and the stream is closed at the end of the iteration. `can_write` tells for
which paths the environment lets `open` succeed (the directory exists, the
file is not read-only, the path is not empty, ...). When it succeeds the file
is created or truncated and then holds that one line; when it fails the result
of `open` is not tested, the insertions into the failed stream do nothing and
the disk is as before. -/
def RegSaveEntry (can_write : StdString → Bool) (file_name : StdString) (disk : Disk)
    (pair : StdString × StdString) : Disk :=
  if can_write file_name then
    fun p => if p = file_name then some (pair.1 ++ " ".toList ++ pair.2 ++ "\n".toList) else disk p
  else disk

/-- `RegSave(file_name)`, registry.h:127-136: the disk and the map afterwards.
The loop visits the entries in the order of the map. -/
def RegSave (can_write : StdString → Bool) (disk : Disk) (kv_pairs : StdMap)
    (file_name : StdString) : Disk × StdMap :=
  (kv_pairs.foldl (RegSaveEntry can_write file_name) disk, kv_pairs)

/-! ## The library conversions `std::stof` and `std::stod` -/

/-- Whether `s` starts with `p`, letter case ignored (`p` in lower case). -/
def starts_with_ci (s p : StdString) : Bool :=
  (s.take p.length).map Char.toLower == p

/-- Whether `strtof`/`strtod` can perform a conversion on `s`: after optional
white space and an optional sign there is a digit, a `.` followed by a digit,
`inf` or `nan` (any letter case). A hexadecimal number starts with the digit
`0`. -/
def strtod_converts (s : StdString) : Bool :=
  let s := s.dropWhile isspace
  let s := match s with
    | '-' :: r => r
    | '+' :: r => r
    | r => r
  match s with
  | [] => false
  | c :: r =>
    isdigit c || (c = '.' && (match r with | d :: _ => isdigit d | [] => false))
      || starts_with_ci s "inf".toList || starts_with_ci s "nan".toList

/-- `std::stof(str)` as the C++ standard defines it over `strtof`: `std::invalid_argument` is thrown when no conversion could
be performed, `std::out_of_range` when the conversion reports a range error,
and the converted value is returned otherwise. The conversion of the chars to
a value of the floating type `F`, with its range flag, is the argument
`strto`. -/
def std_stof {F : Type} (strto : StdString → F × Bool) (str : StdString) :
    Except StdException F :=
  if strtod_converts str then
    if (strto str).2 then Except.error StdException.out_of_range
    else Except.ok (strto str).1
  else Except.error StdException.invalid_argument

/-- `std::stod(str)`: as `std::stof`, over `strtod`. -/
def std_stod {F : Type} (strto : StdString → F × Bool) (str : StdString) :
    Except StdException F :=
  std_stof strto str

/-! ## Auxiliary notions used to state the theorems -/

/-- The lines that successive calls of `std::getline(is, line, delim)` deliver
from a stream holding `s`, up to the call that fails: the pieces of `s` between
occurrences of `delim`, without a last empty piece. -/
def getlines (delim : Char) : StdString → List StdString
  | [] => []
  | c :: cs =>
    if c = delim then [] :: getlines delim cs
    else
      match getlines delim cs with
      | [] => [[c]]
      | l :: ls => (c :: l) :: ls

/-- The tokens of a line in the words of the specification: the maximal runs of
non-space chars, that is the pieces between the spaces of `s` that are not
empty. -/
def spec_tokens (s : StdString) : List StdString :=
  (s.splitOn ' ').filter (fun t => t ≠ [])

/-- The invariant of a `std::map`: the keys are strictly ascending in
iteration order. -/
def StdMap.ordered (m : StdMap) : Prop :=
  m.Pairwise (fun a b => string_less a.1 b.1 = true)

theorem digitChar_spec : ∀ k, k < 10 →
    isdigit (Nat.digitChar k) = true ∧ (Nat.digitChar k).toNat - 48 = k := by
  decide

theorem isdigit_toDigitsCore (fuel : Nat) : ∀ (n : Nat) (ds : List Char),
    (∀ c ∈ ds, isdigit c = true) → ∀ c ∈ Nat.toDigitsCore 10 fuel n ds, isdigit c = true := by
  induction fuel with
  | zero => intro n ds h; simpa [Nat.toDigitsCore] using h
  | succ fuel ih =>
    intro n ds h
    have hd : ∀ c ∈ Nat.digitChar (n % 10) :: ds, isdigit c = true := by
      intro c hc
      rcases List.mem_cons.mp hc with rfl | hc
      · exact (digitChar_spec _ (Nat.mod_lt _ (by decide))).1
      · exact h c hc
    simp only [Nat.toDigitsCore]
    split
    · exact hd
    · exact ih _ _ hd

theorem toDigitsCore_ne_nil (fuel : Nat) : ∀ (n : Nat) (ds : List Char),
    Nat.toDigitsCore 10 (fuel + 1) n ds ≠ [] := by
  induction fuel with
  | zero =>
    intro n ds
    simp only [Nat.toDigitsCore]
    split <;> simp
  | succ fuel ih =>
    intro n ds
    rw [Nat.toDigitsCore]
    split
    · simp
    · exact ih _ _

theorem atoi_digits_toDigitsCore (fuel : Nat) : ∀ (n : Nat) (ds : List Char), n < fuel →
    atoi_digits 0 (Nat.toDigitsCore 10 fuel n ds) = atoi_digits n ds := by
  induction fuel with
  | zero => intro n ds h; omega
  | succ fuel ih =>
    intro n ds h
    have hstep : atoi_digits (n / 10) (Nat.digitChar (n % 10) :: ds) = atoi_digits n ds := by
      have := digitChar_spec (n % 10) (Nat.mod_lt _ (by decide))
      simp only [atoi_digits, this.1, this.2, if_true]
      rw [Nat.div_add_mod']
    simp only [Nat.toDigitsCore]
    split
    · rename_i h0
      rw [← hstep, h0]
    · rename_i h0
      rw [ih _ _ (by omega), hstep]


theorem isdigit_toDigits (n : Nat) : ∀ c ∈ Nat.toDigits 10 n, isdigit c = true :=
  isdigit_toDigitsCore _ _ _ (by simp)

theorem toDigits_eq_cons (n : Nat) :
    ∃ c cs, Nat.toDigits 10 n = c :: cs ∧ isdigit c = true := by
  have hne : Nat.toDigits 10 n ≠ [] := toDigitsCore_ne_nil _ _ _
  have hd := isdigit_toDigits n
  cases h : Nat.toDigits 10 n with
  | nil => exact absurd h hne
  | cons c cs => exact ⟨c, cs, rfl, hd c (by simp [h])⟩

theorem atoi_digits_toDigits (n : Nat) : atoi_digits 0 (Nat.toDigits 10 n) = n := by
  have := atoi_digits_toDigitsCore (n + 1) n [] (by omega)
  simpa [Nat.toDigits, atoi_digits] using this

theorem isdigit_ne_nul (c : Char) (h : isdigit c = true) : c ≠ '\x00' := by
  rintro rfl
  exact absurd h (by decide)

theorem c_str_to_string (v : Int) : c_str (to_string v) = to_string v := by
  unfold c_str
  rw [List.takeWhile_eq_self_iff]
  intro c hc
  unfold to_string at hc
  split at hc
  · rcases List.mem_cons.mp hc with rfl | hc
    · decide
    · simpa using isdigit_ne_nul c (isdigit_toDigits _ c hc)
  · simpa using isdigit_ne_nul c (isdigit_toDigits _ c hc)

theorem atoi_value_digit (c : Char) (cs : StdString) (h : isdigit c = true) :
    atoi_value (c :: cs) = (atoi_digits 0 (c :: cs) : Int) := by
  have hs : isspace c = false := by
    cases hsp : isspace c with
    | false => rfl
    | true =>
      simp only [isspace, Bool.or_eq_true, decide_eq_true_eq] at hsp
      rcases hsp with ((((rfl | rfl) | rfl) | rfl) | rfl) | rfl <;> exact absurd h (by decide)
  unfold atoi_value
  rw [List.dropWhile_cons_of_neg (by simp [hs])]
  split
  · rename_i heq
    have : c = '-' := by injection heq
    subst this
    exact absurd h (by decide)
  · rename_i heq
    have : c = '+' := by injection heq
    subst this
    exact absurd h (by decide)
  · rfl

theorem atoi_value_to_string (v : Int) : atoi_value (to_string v) = v := by
  unfold to_string
  split
  · rename_i hneg
    unfold atoi_value
    rw [List.dropWhile_cons_of_neg (by decide)]
    simp only [atoi_digits_toDigits]
    omega
  · rename_i hpos
    obtain ⟨c, cs, hcs, hc⟩ := toDigits_eq_cons v.natAbs
    rw [hcs, atoi_value_digit c cs hc, ← hcs, atoi_digits_toDigits]
    omega

theorem atoi_to_string (v : Int) (hv : INT_MIN ≤ v ∧ v ≤ INT_MAX) :
    atoi (c_str (to_string v)) = some v := by
  rw [c_str_to_string]
  unfold atoi
  simp only [atoi_value_to_string]
  rw [if_pos hv]

/-! ### Setters and getters -/

theorem string_less_irrefl (a : StdString) : string_less a a = false := by
  induction a with
  | nil => rfl
  | cons c cs ih => simp [string_less, ih]

theorem find_assign_self (m : StdMap) (key value : StdString) :
    StdMap.find (StdMap.assign m key value) key = some value := by
  induction m with
  | nil => simp [StdMap.assign, StdMap.find, string_less_irrefl]
  | cons e rest ih =>
    obtain ⟨k, v⟩ := e
    by_cases h1 : string_less k key = true
    · simp [StdMap.assign, StdMap.find, h1, ih]
    · by_cases h2 : string_less key k = true
      · simp [StdMap.assign, StdMap.find, h1, h2, string_less_irrefl]
      · simp [StdMap.assign, StdMap.find, h1, h2]

/-- C1: for every prior map, key, default and 32-bit `int` value, `RegGetInt32`
called after `RegSetInt32` of that key returns exactly the value set. -/
theorem RegGetInt32_after_RegSetInt32 (kv_pairs : StdMap) (k : StdString) (v d : Int)
    (hv : INT_MIN ≤ v ∧ v ≤ INT_MAX) :
    (RegGetInt32 (RegSetInt32 kv_pairs k v) k d).1 = some v := by
  unfold RegGetInt32 RegSetInt32
  rw [find_assign_self]
  exact atoi_to_string v hv

theorem RegGetInt32_after_RegSetInt32_witness :
    (INT_MIN ≤ (-2147483648 : Int) ∧ (-2147483648 : Int) ≤ INT_MAX) ∧
    (RegGetInt32 (RegSetInt32 [("x".toList, "7".toList)] "x".toList (-2147483648)) "x".toList 5).1
      = some (-2147483648) :=
  ⟨by decide, RegGetInt32_after_RegSetInt32 _ _ _ _ (by decide)⟩

/-- C2: for every prior map (holding the key or not), key, text and default,
`RegGetString` called after `RegSetString` of that key returns exactly the text
set: the setter overwrites and the most recent write wins. -/
theorem RegGetString_after_RegSetString (kv_pairs : StdMap) (k v d : StdString) :
    (RegGetString (RegSetString kv_pairs k v) k d).1 = v ∧
    ∀ v', (RegGetString (RegSetString (RegSetString kv_pairs k v') k v) k d).1 = v := by
  constructor
  · unfold RegGetString RegSetString
    rw [find_assign_self]
  · intro v'
    unfold RegGetString RegSetString
    rw [find_assign_self]

/-- C3: on a map with no entry for the key, each of the four getters returns
exactly the default it was given, as a normal result (no exception, no
undefined `atoi`). -/
theorem getters_absent_key {F32 F64 : Type}
    (stof : StdString → Except StdException F32) (stod : StdString → Except StdException F64)
    (kv_pairs : StdMap) (k : StdString) (hk : kv_pairs.find k = none)
    (ds : StdString) (di : Int) (df : F32) (dd : F64) :
    (RegGetString kv_pairs k ds).1 = ds ∧
    (RegGetInt32 kv_pairs k di).1 = some di ∧
    (RegGetFloat32 stof kv_pairs k df).1 = Except.ok df ∧
    (RegGetFloat64 stod kv_pairs k dd).1 = Except.ok dd := by
  simp [RegGetString, RegGetInt32, RegGetFloat32, RegGetFloat64, hk]

theorem getters_absent_key_witness :
    StdMap.find [("a".toList, "1".toList)] "b".toList = none ∧
    (RegGetString [("a".toList, "1".toList)] "b".toList "dflt".toList).1 = "dflt".toList ∧
    (RegGetInt32 [("a".toList, "1".toList)] "b".toList (-3)).1 = some (-3) ∧
    (RegGetFloat32 (fun _ => (Except.error StdException.invalid_argument : Except StdException Int))
      [("a".toList, "1".toList)] "b".toList 2).1 = Except.ok 2 ∧
    (RegGetFloat64 (fun _ => (Except.error StdException.invalid_argument : Except StdException Int))
      [("a".toList, "1".toList)] "b".toList 4).1 = Except.ok 4 :=
  ⟨by decide, getters_absent_key _ _ _ _ (by decide) _ _ _ _⟩

/-- C4: when no file can be opened at the path, `RegLoad` returns false and
leaves the map as it was, so every getter answers as before the call. -/
theorem RegLoad_missing_file (fs : FileSystem) (kv_pairs : StdMap) (path : StdString)
    (hpath : fs path = none) :
    RegLoad fs kv_pairs path = (false, kv_pairs) := by
  simp [RegLoad, FileExists, hpath]

theorem RegLoad_missing_file_witness :
    (fun p => if p = "config.txt".toList then some "a 1\n".toList else none : FileSystem)
      "nofile.txt".toList = none ∧
    RegLoad (fun p => if p = "config.txt".toList then some "a 1\n".toList else none)
      [("x".toList, "42".toList)] "nofile.txt".toList = (false, [("x".toList, "42".toList)]) :=
  ⟨by decide, RegLoad_missing_file _ _ _ (by decide)⟩


/-! ### The loops and the lines they read -/

theorem getlines_step (d : Char) : ∀ (s : StdString), s ≠ [] →
    getlines d s = s.takeWhile (fun c => c ≠ d) ::
      getlines d ((s.dropWhile (fun c => c ≠ d)).drop 1) := by
  intro s
  induction s with
  | nil => intro h; exact absurd rfl h
  | cons c cs ih =>
    intro _
    by_cases hc : c = d
    · subst hc
      simp [getlines]
    · cases cs with
      | nil => simp [getlines, hc]
      | cons c' cs' =>
        have ih' := ih (by simp)
        rw [getlines, if_neg hc, ih']
        simp [hc]

theorem drop_dropWhile_length (d : Char) (c : Char) (cs : StdString) :
    (((c :: cs).dropWhile (fun c => c ≠ d)).drop 1).length < (c :: cs).length := by
  have h1 : ((c :: cs).dropWhile (fun c => c ≠ d)).length ≤ (c :: cs).length :=
    (List.dropWhile_sublist _).length_le
  by_cases hc : c = d
  · subst hc
    simp
  · have h2 : ((c :: cs).dropWhile (fun c => c ≠ d)) = cs.dropWhile (fun c => c ≠ d) := by
      simp [hc]
    have h3 : (cs.dropWhile (fun c => c ≠ d)).length ≤ cs.length :=
      (List.dropWhile_sublist _).length_le
    rw [h2]
    simp only [List.length_drop, List.length_cons]
    omega

theorem RegLoadLoop_eq_foldl (fuel : Nat) : ∀ (s : StdString) (kv : StdMap), s.length < fuel →
    RegLoadLoop fuel s kv = (getlines '\n' s).foldl RegLoadLine kv := by
  induction fuel with
  | zero => intro s kv h; omega
  | succ fuel ih =>
    intro s kv h
    cases s with
    | nil => simp [RegLoadLoop, getline, getlines]
    | cons c cs =>
      have hlen := drop_dropWhile_length '\n' c cs
      rw [getlines_step '\n' (c :: cs) (by simp)]
      simp only [RegLoadLoop, getline, List.foldl_cons]
      exact ih _ _ (by simp only [List.length_cons] at h hlen ⊢; omega)

theorem SplitStringLoop_eq_filter (d : Char) (fuel : Nat) :
    ∀ (s : StdString) (result : List StdString), s.length < fuel →
    SplitStringLoop fuel s d result = result ++ (getlines d s).filter (fun t => t ≠ []) := by
  induction fuel with
  | zero => intro s result h; omega
  | succ fuel ih =>
    intro s result h
    cases s with
    | nil => simp [SplitStringLoop, getline, getlines]
    | cons c cs =>
      have hlen := drop_dropWhile_length d c cs
      rw [getlines_step d (c :: cs) (by simp)]
      simp only [SplitStringLoop, getline]
      rw [ih _ _ (by simp only [List.length_cons] at h hlen ⊢; omega)]
      generalize (c :: cs).takeWhile (fun c => c ≠ d) = item
      generalize getlines d (((c :: cs).dropWhile (fun c => c ≠ d)).drop 1) = ls
      cases item with
      | nil => simp
      | cons x xs => simp

theorem SplitString_eq_filter (s : StdString) (d : Char) :
    SplitString s d [] = (getlines d s).filter (fun t => t ≠ []) := by
  unfold SplitString
  rw [SplitStringLoop_eq_filter d _ s [] (by omega)]
  simp

/-- More iterations than `s.length + 1` change nothing: the loop of `RegLoad`
has then stopped at the end of the stream. -/
theorem RegLoadLoop_fuel (fuel : Nat) (s : StdString) (kv : StdMap) (h : s.length < fuel) :
    RegLoadLoop fuel s kv = RegLoadLoop (s.length + 1) s kv := by
  rw [RegLoadLoop_eq_foldl fuel s kv h, RegLoadLoop_eq_foldl _ s kv (by omega)]

/-- More iterations than `s.length + 1` change nothing: the loop of
`SplitString` has then stopped at the end of the stream. -/
theorem SplitStringLoop_fuel (fuel : Nat) (s : StdString) (d : Char) (result : List StdString)
    (h : s.length < fuel) :
    SplitStringLoop fuel s d result = SplitString s d result := by
  unfold SplitString
  rw [SplitStringLoop_eq_filter d fuel s result h, SplitStringLoop_eq_filter d _ s result (by omega)]

theorem RegLoad_of_exists (fs : FileSystem) (kv : StdMap) (path : StdString)
    (h : fs path ≠ none) :
    RegLoad fs kv path =
      (true, (getlines '\n' (ifstream fs "config.txt".toList)).foldl RegLoadLine []) := by
  have hex : FileExists fs path = true := by
    unfold FileExists
    cases hp : fs path with
    | none => exact absurd hp h
    | some _ => rfl
  unfold RegLoad
  rw [if_pos hex]
  simp only []
  rw [RegLoadLoop_eq_foldl _ _ _ (by omega)]


/-! ### The order of the keys -/

theorem char_eq_of_toNat_eq {a b : Char} (h : a.toNat = b.toNat) : a = b := by
  apply Char.ext
  apply UInt32.ext
  exact h

theorem string_less_total : ∀ (a b : StdString),
    string_less a b = false → string_less b a = false → a = b := by
  intro a
  induction a with
  | nil =>
    intro b h1 h2
    cases b with
    | nil => rfl
    | cons _ _ => simp [string_less] at h1
  | cons x xs ih =>
    intro b h1 h2
    cases b with
    | nil => simp [string_less] at h2
    | cons y ys =>
      simp only [string_less] at h1 h2
      split_ifs at h1 h2 with h3 h4
      have hxy : x = y := char_eq_of_toNat_eq (by omega)
      rw [hxy, ih ys h1 h2]

theorem string_less_asymm : ∀ (a b : StdString),
    string_less a b = true → string_less b a = false := by
  intro a
  induction a with
  | nil =>
    intro b h
    cases b with
    | nil => rfl
    | cons _ _ => rfl
  | cons x xs ih =>
    intro b h
    cases b with
    | nil => simp [string_less] at h
    | cons y ys =>
      simp only [string_less] at h ⊢
      split_ifs at h ⊢ with h3 h4 <;> first | rfl | omega | exact ih ys h

theorem string_less_trans : ∀ (a b c : StdString),
    string_less a b = true → string_less b c = true → string_less a c = true := by
  intro a
  induction a with
  | nil =>
    intro b c h1 h2
    cases b with
    | nil => simp [string_less] at h1
    | cons y ys =>
      cases c with
      | nil => simp [string_less] at h2
      | cons _ _ => rfl
  | cons x xs ih =>
    intro b c h1 h2
    cases b with
    | nil => simp [string_less] at h1
    | cons y ys =>
      cases c with
      | nil => simp [string_less] at h2
      | cons z zs =>
        simp only [string_less] at h1 h2 ⊢
        split_ifs at h1 h2 ⊢ <;> first | rfl | omega | exact ih ys zs h1 h2

theorem find_assign_ne (m : StdMap) (key value k' : StdString) (hne : k' ≠ key) :
    StdMap.find (StdMap.assign m key value) k' = StdMap.find m k' := by
  induction m with
  | nil =>
    simp only [StdMap.assign, StdMap.find]
    cases h1 : string_less key k' with
    | true => simp
    | false =>
      cases h2 : string_less k' key with
      | true => simp
      | false => exact absurd (string_less_total _ _ h2 h1) hne
  | cons e rest ih =>
    obtain ⟨k, v⟩ := e
    simp only [StdMap.assign]
    cases h1 : string_less k key with
    | true =>
      simp only [if_true, StdMap.find, ih]
    | false =>
      cases h2 : string_less key k with
      | true =>
        simp only [if_true, Bool.false_eq_true, if_false, StdMap.find]
        cases h3 : string_less key k' with
        | true => simp
        | false =>
          cases h4 : string_less k' key with
          | true =>
            have h5 : string_less k' k = true := string_less_trans _ _ _ h4 h2
            have h6 : string_less k k' = false := string_less_asymm _ _ h5
            simp [h5, h6]
          | false => exact absurd (string_less_total _ _ h4 h3) hne
      | false =>
        have hk : k = key := string_less_total _ _ h1 h2
        subst hk
        simp only [Bool.false_eq_true, if_false, StdMap.find]
        cases h3 : string_less k k' with
        | true => simp
        | false =>
          cases h4 : string_less k' k with
          | true => simp
          | false => exact absurd (string_less_total _ _ h4 h3) hne

theorem find_RegLoadLine_other (kv : StdMap) (line k : StdString)
    (hline : ∀ key rest, SplitString (TrimString (RemoveComments line)) ' ' [] = key :: rest →
      rest ≠ [] → key ≠ k) :
    (RegLoadLine kv line).find k = kv.find k := by
  unfold RegLoadLine
  simp only []
  split
  · rename_i hlen
    cases htok : SplitString (TrimString (RemoveComments line)) ' ' [] with
    | nil => simp [htok] at hlen
    | cons key rest =>
      have hrest : rest ≠ [] := by
        rintro rfl
        simp [htok] at hlen
      have hk := hline key rest htok hrest
      rw [List.headD_cons, find_assign_ne _ _ _ _ (Ne.symm hk)]
  · rfl

theorem find_foldl_RegLoadLine_other (lines : List StdString) (k : StdString) :
    ∀ (kv : StdMap),
    (∀ line ∈ lines, ∀ key rest,
      SplitString (TrimString (RemoveComments line)) ' ' [] = key :: rest → rest ≠ [] → key ≠ k) →
    (lines.foldl RegLoadLine kv).find k = kv.find k := by
  induction lines with
  | nil => intro kv _; rfl
  | cons line lines ih =>
    intro kv h
    rw [List.foldl_cons, ih _ (fun l hl => h l (List.mem_cons_of_mem _ hl))]
    exact find_RegLoadLine_other kv line k (h line (List.mem_cons_self _ _))

/-- C5: evaluation at the failing input. A well-formed file `settings.txt` holds
`width 800` and `height 600`, while `config.txt` holds `width 640`. `RegLoad`
of `settings.txt` returns true, but the map then holds what `config.txt` says:
`RegGetInt32("width", 0)` is 640, not 800, and `RegGetInt32("height", 0)` is
the default 0, not 600. When the two lines are in `config.txt` itself and that
is the path loaded, the getters return 800 and 600. -/
theorem RegLoad_reads_other_file :
    RegLoad (fun p => if p = "settings.txt".toList then some "width 800\nheight 600\n".toList
                      else if p = "config.txt".toList then some "width 640\n".toList else none)
      [] "settings.txt".toList = (true, [("width".toList, "640".toList)]) ∧
    (RegGetInt32 (RegLoad (fun p =>
        if p = "settings.txt".toList then some "width 800\nheight 600\n".toList
        else if p = "config.txt".toList then some "width 640\n".toList else none)
      [] "settings.txt".toList).2 "width".toList 0).1 = some 640 ∧
    (RegGetInt32 (RegLoad (fun p =>
        if p = "settings.txt".toList then some "width 800\nheight 600\n".toList
        else if p = "config.txt".toList then some "width 640\n".toList else none)
      [] "settings.txt".toList).2 "height".toList 0).1 = some 0 ∧
    (RegGetInt32 (RegLoad (fun p =>
        if p = "config.txt".toList then some "width 800\nheight 600\n".toList else none)
      [] "config.txt".toList).2 "width".toList 0).1 = some 800 ∧
    (RegGetInt32 (RegLoad (fun p =>
        if p = "config.txt".toList then some "width 800\nheight 600\n".toList else none)
      [] "config.txt".toList).2 "height".toList 0).1 = some 600 := by
  decide

/-- C6: when a file exists at the path, the map after `RegLoad(path)` depends on
the file system only through the contents of `config.txt`: two file systems
that agree on `config.txt` and both have a file at the path give the same
result, whatever the file at the path contains. -/
theorem RegLoad_depends_on_config_txt (fs₁ fs₂ : FileSystem) (kv_pairs : StdMap)
    (path : StdString) (h₁ : fs₁ path ≠ none) (h₂ : fs₂ path ≠ none)
    (hcfg : fs₁ "config.txt".toList = fs₂ "config.txt".toList) :
    RegLoad fs₁ kv_pairs path = RegLoad fs₂ kv_pairs path := by
  rw [RegLoad_of_exists fs₁ kv_pairs path h₁, RegLoad_of_exists fs₂ kv_pairs path h₂]
  unfold ifstream
  rw [hcfg]

theorem RegLoad_depends_on_config_txt_witness :
    (fun p => if p = "config.txt".toList then some "a 1\n".toList
              else if p = "other.txt".toList then some "b 2\n".toList else none : FileSystem)
      "other.txt".toList ≠ none ∧
    (fun p => if p = "config.txt".toList then some "a 1\n".toList
              else if p = "other.txt".toList then some "c 3\nd 4\n".toList else none : FileSystem)
      "other.txt".toList ≠ none ∧
    RegLoad (fun p => if p = "config.txt".toList then some "a 1\n".toList
              else if p = "other.txt".toList then some "b 2\n".toList else none)
        [("x".toList, "9".toList)] "other.txt".toList =
      RegLoad (fun p => if p = "config.txt".toList then some "a 1\n".toList
              else if p = "other.txt".toList then some "c 3\nd 4\n".toList else none)
        [("x".toList, "9".toList)] "other.txt".toList :=
  ⟨by decide, by decide,
    RegLoad_depends_on_config_txt _ _ _ _ (by decide) (by decide) (by decide)⟩

/-- C7: a successful `RegLoad` replaces the whole map. Whatever the map held
before, the map afterwards is the result of processing the lines of the file
read (`config.txt`), in order, starting from the empty map; so a key that is
not the key of any entry-producing line of that file has no entry afterwards
and its getter returns the default. -/
theorem RegLoad_replaces_contents (fs : FileSystem) (kv_pairs : StdMap) (path : StdString)
    (hpath : fs path ≠ none) :
    (RegLoad fs kv_pairs path).1 = true ∧
    (RegLoad fs kv_pairs path).2 =
      (getlines '\n' (ifstream fs "config.txt".toList)).foldl RegLoadLine [] ∧
    ∀ k : StdString,
      (∀ line ∈ getlines '\n' (ifstream fs "config.txt".toList), ∀ key rest,
        SplitString (TrimString (RemoveComments line)) ' ' [] = key :: rest →
        rest ≠ [] → key ≠ k) →
      (RegLoad fs kv_pairs path).2.find k = none ∧
      ∀ d, (RegGetString (RegLoad fs kv_pairs path).2 k d).1 = d := by
  rw [RegLoad_of_exists fs kv_pairs path hpath]
  refine ⟨rfl, rfl, ?_⟩
  intro k hk
  have hnone : StdMap.find (List.foldl RegLoadLine []
      (getlines '\n' (ifstream fs "config.txt".toList))) k = none :=
    find_foldl_RegLoadLine_other _ k [] hk
  refine ⟨hnone, ?_⟩
  intro d
  simp only [RegGetString]
  rw [hnone]

theorem RegLoad_replaces_contents_witness :
    (fun p => if p = "config.txt".toList then some "a 1\n".toList else none : FileSystem)
      "config.txt".toList ≠ none ∧
    (RegLoad (fun p => if p = "config.txt".toList then some "a 1\n".toList else none)
      [("x".toList, "9".toList)] "config.txt".toList).2 = [("a".toList, "1".toList)] :=
  ⟨by decide,
    (RegLoad_replaces_contents _ [("x".toList, "9".toList)] _ (by decide)).2.1.trans (by decide)⟩

/-- C8: evaluation at the failing input. On the line `k v ; c1 ; c2` the text
kept by `RemoveComments` is `k v ; c1 ` (up to the last semicolon), not the
prefix `k v ` before the first one, and `RegLoad` stores the value `v;c1`,
which holds a semicolon and text from after the first semicolon. On the
comment-only line `; a ; b` it stores an entry with key `;`. -/
theorem RemoveComments_erases_from_last_semicolon :
    RemoveComments "k v ; c1 ; c2".toList = "k v ; c1 ".toList ∧
    RemoveComments "k v ; c1 ; c2".toList ≠
      "k v ; c1 ; c2".toList.takeWhile (fun c => c ≠ ';') ∧
    RegLoad (fun p => if p = "config.txt".toList then some "k v ; c1 ; c2\n".toList else none)
      [] "config.txt".toList = (true, [("k".toList, "v;c1".toList)]) ∧
    RegLoad (fun p => if p = "config.txt".toList then some "; a ; b\n".toList else none)
      [] "config.txt".toList = (true, [(";".toList, "a".toList)]) := by
  decide


/-! ### Lines of a file and tokens of a line -/

theorem getlines_eq_nil (d : Char) (s : StdString) (h : getlines d s = []) : s = [] := by
  cases s with
  | nil => rfl
  | cons c cs =>
    rw [getlines_step d (c :: cs) (by simp)] at h
    exact absurd h (by simp)

theorem getlines_cons_delim (d : Char) (cs : StdString) :
    getlines d (d :: cs) = [] :: getlines d cs := by
  rw [getlines, if_pos rfl]

theorem getlines_cons_other (d c : Char) (cs l : StdString) (ls : List StdString)
    (hc : c ≠ d) (h : getlines d cs = l :: ls) :
    getlines d (c :: cs) = (c :: l) :: ls := by
  rw [getlines, if_neg hc, h]

theorem getlines_line_cons (d : Char) (post : StdString) : ∀ (line : StdString), d ∉ line →
    getlines d (line ++ d :: post) = line :: getlines d post := by
  intro line
  induction line with
  | nil => intro _; exact getlines_cons_delim d post
  | cons c cs ih =>
    intro h
    have hc : c ≠ d := fun e => h (by simp [e])
    have hcs : d ∉ cs := fun e => h (List.mem_cons_of_mem _ e)
    rw [List.cons_append]
    exact getlines_cons_other d c _ _ _ hc (ih hcs)

theorem getlines_line (d : Char) : ∀ (line : StdString), d ∉ line → line ≠ [] →
    getlines d line = [line] := by
  intro line
  induction line with
  | nil => intro _ h; exact absurd rfl h
  | cons c cs ih =>
    intro h _
    have hc : c ≠ d := fun e => h (by simp [e])
    have hcs : d ∉ cs := fun e => h (List.mem_cons_of_mem _ e)
    cases cs with
    | nil => simp [getlines, hc]
    | cons c' cs' => exact getlines_cons_other d c _ _ _ hc (ih hcs (by simp))

theorem getlines_append_terminated (d : Char) (s : StdString) : ∀ (p : StdString),
    getlines d (p ++ d :: s) = getlines d (p ++ [d]) ++ getlines d s := by
  intro p
  induction p with
  | nil =>
    rw [List.nil_append, List.nil_append, getlines_cons_delim, getlines_cons_delim]
    rfl
  | cons c p ih =>
    rw [List.cons_append, List.cons_append]
    by_cases hc : c = d
    · subst hc
      rw [getlines_cons_delim, getlines_cons_delim, ih, List.cons_append]
    · cases h : getlines d (p ++ [d]) with
      | nil => exact absurd (getlines_eq_nil d _ h) (by simp)
      | cons l ls =>
        rw [getlines_cons_other d c _ l ls hc h,
          getlines_cons_other d c _ l (ls ++ getlines d s) hc (by rw [ih, h, List.cons_append]),
          List.cons_append]

theorem getlines_append (d : Char) (pre s : StdString)
    (hpre : pre = [] ∨ ∃ p, pre = p ++ [d]) :
    getlines d (pre ++ s) = getlines d pre ++ getlines d s := by
  rcases hpre with rfl | ⟨p, rfl⟩
  · simp [getlines]
  · rw [List.append_assoc, List.singleton_append, getlines_append_terminated]

theorem getlines_around_line (d : Char) (pre line term post : StdString)
    (hpre : pre = [] ∨ ∃ p, pre = p ++ [d]) (hline : d ∉ line)
    (hterm : term = [d] ∨ (term = [] ∧ post = [] ∧ line ≠ [])) :
    getlines d (pre ++ line ++ term ++ post) =
      getlines d pre ++ line :: getlines d post := by
  rw [List.append_assoc, List.append_assoc, getlines_append d pre _ hpre]
  rcases hterm with rfl | ⟨rfl, rfl, hne⟩
  · rw [List.singleton_append, getlines_line_cons d post line hline]
  · simp only [List.append_nil]
    rw [getlines_line d line hline hne]
    simp [getlines]

theorem splitOn_getlines (d : Char) : ∀ (s : StdString),
    s.splitOn d = getlines d s ∨ s.splitOn d = getlines d s ++ [[]] := by
  intro s
  induction s with
  | nil => right; rfl
  | cons c cs ih =>
    have hcons : (c :: cs).splitOn d =
        if (c == d) = true then [] :: cs.splitOn d
        else (cs.splitOn d).modifyHead (List.cons c) := by
      simp only [List.splitOn]
      rw [List.splitOnP_cons]
    rw [hcons]
    by_cases hc : c = d
    · have hb : (c == d) = true := by simp [hc]
      rw [if_pos hb]
      simp only [getlines, if_pos hc]
      rcases ih with h | h
      · left; rw [h]
      · right; rw [h]; rfl
    · have hb : ¬ (c == d) = true := by simp [hc]
      rw [if_neg hb]
      simp only [getlines, if_neg hc]
      rcases ih with h | h
      · rw [h]
        cases hg : getlines d cs with
        | nil =>
          have := List.splitOnP_ne_nil (fun x => x == d) cs
          simp only [List.splitOn] at h
          rw [h, hg] at this
          exact absurd rfl this
        | cons l ls => left; rfl
      · rw [h]
        cases hg : getlines d cs with
        | nil => left; rfl
        | cons l ls => right; rfl

theorem SplitString_eq_spec_tokens (s : StdString) :
    SplitString s ' ' [] = spec_tokens s := by
  rw [SplitString_eq_filter]
  unfold spec_tokens
  rcases splitOn_getlines ' ' s with h | h
  · rw [h]
  · rw [h, List.filter_append]
    simp

theorem foldl_append_flatten (l : List StdString) : ∀ (acc : StdString),
    l.foldl (fun value token => value ++ token) acc = acc ++ l.flatten := by
  induction l with
  | nil => intro acc; simp
  | cons t ts ih => intro acc; simp [ih]

theorem RegLoadLine_of_tokens (kv : StdMap) (line k t : StdString) (ts : List StdString)
    (htok : spec_tokens (TrimString (RemoveComments line)) = k :: t :: ts) :
    RegLoadLine kv line = kv.assign k (t :: ts).flatten := by
  rw [← SplitString_eq_spec_tokens] at htok
  unfold RegLoadLine
  simp only [htok]
  rw [if_pos (by simp)]
  simp only [List.drop_succ_cons, List.drop_zero, List.headD_cons]
  rw [foldl_append_flatten]
  simp

theorem find_last_of_none (ch : Char) : ∀ (s : StdString), ch ∉ s → find_last_of s ch = none := by
  intro s
  induction s with
  | nil => intro _; rfl
  | cons c cs ih =>
    intro h
    have hc : c ≠ ch := fun e => h (by simp [e])
    have hcs : ch ∉ cs := fun e => h (List.mem_cons_of_mem _ e)
    simp only [find_last_of, ih hcs, if_neg hc]

theorem find_last_of_append (ch : Char) (rest : StdString) (hrest : ch ∉ rest) :
    ∀ (a : StdString), find_last_of (a ++ ch :: rest) ch = some a.length := by
  intro a
  induction a with
  | nil => simp [find_last_of, find_last_of_none ch rest hrest]
  | cons c cs ih =>
    rw [List.cons_append]
    simp only [find_last_of, ih, List.length_cons]

theorem RemoveComments_no_semicolon (s : StdString) (h : ';' ∉ s) : RemoveComments s = s := by
  unfold RemoveComments
  rw [find_last_of_none ';' s h]

theorem RemoveComments_one_semicolon (a rest : StdString) (h : ';' ∉ rest) :
    RemoveComments (a ++ ';' :: rest) = a := by
  unfold RemoveComments
  rw [find_last_of_append ';' rest h a]
  simp [erase]

theorem find_first_not_of_none (t : StdString) : ∀ (s : StdString), (∀ c ∈ s, c ∈ t) →
    find_first_not_of s t = none := by
  intro s
  induction s with
  | nil => intro _; rfl
  | cons c cs ih =>
    intro h
    have hc : c ∈ t := h c (List.mem_cons_self _ _)
    simp only [find_first_not_of, if_pos hc, ih (fun x hx => h x (List.mem_cons_of_mem _ hx)),
      Option.map_none']

theorem TrimString_all_whitespace (s : StdString) (h : ∀ c ∈ s, c ∈ whitespace) :
    TrimString s = [] := by
  unfold TrimString
  rw [find_first_not_of_none whitespace s h]
  rfl

theorem find_last_not_of_all (t : StdString) : ∀ (s : StdString), (∀ c ∈ s, c ∉ t) → s ≠ [] →
    find_last_not_of s t = some (s.length - 1) := by
  intro s
  induction s with
  | nil => intro _ h; exact absurd rfl h
  | cons c cs ih =>
    intro h _
    have hc : c ∉ t := h c (List.mem_cons_self _ _)
    cases cs with
    | nil => simp [find_last_not_of, hc]
    | cons c' cs' =>
      have := ih (fun x hx => h x (List.mem_cons_of_mem _ hx)) (by simp)
      rw [find_last_not_of, this]
      simp

theorem TrimString_no_whitespace (s : StdString) (h : ∀ c ∈ s, c ∉ whitespace) :
    TrimString s = s := by
  cases s with
  | nil => rfl
  | cons c cs =>
    have hc : c ∉ whitespace := h c (List.mem_cons_self _ _)
    unfold TrimString
    have h1 : find_first_not_of (c :: cs) whitespace = some 0 := by
      simp only [find_first_not_of, if_neg hc]
    rw [h1]
    have h2 : erase (c :: cs) 0 (some 0) = c :: cs := by simp [erase]
    rw [h2]
    simp only []
    rw [find_last_not_of_all whitespace (c :: cs) h (by simp)]
    simp [erase]

/-- A line made only of space, tab, CR, form feed and vertical tab yields no token. -/
theorem spec_tokens_whitespace_line (line : StdString)
    (h : ∀ c ∈ line, c ∈ [' ', '\t', '\r', '\x0c', '\x0b']) :
    spec_tokens (TrimString (RemoveComments line)) = [] := by
  have hsemi : ';' ∉ line := fun e => absurd (h _ e) (by decide)
  have hws : ∀ c ∈ line, c ∈ whitespace := by
    intro c hc
    have := h c hc
    simp only [whitespace, List.mem_cons] at this ⊢
    tauto
  rw [RemoveComments_no_semicolon line hsemi, TrimString_all_whitespace line hws]
  rfl

/-- A line that is white space followed by a comment with no further semicolon
yields no token. -/
theorem spec_tokens_comment_line (ws rest : StdString)
    (hws : ∀ c ∈ ws, c ∈ whitespace) (hrest : ';' ∉ rest) :
    spec_tokens (TrimString (RemoveComments (ws ++ ';' :: rest))) = [] := by
  rw [RemoveComments_one_semicolon ws rest hrest, TrimString_all_whitespace ws hws]
  rfl

/-- A line that is a key alone (not empty, free of white space and semicolons)
yields one token. -/
theorem spec_tokens_key_line (key : StdString) (hne : key ≠ [])
    (hkey : ∀ c ∈ key, c ∉ whitespace ∧ c ≠ ';') :
    spec_tokens (TrimString (RemoveComments key)) = [key] := by
  have hsemi : ';' ∉ key := fun e => (hkey _ e).2 rfl
  have hsp : ' ' ∉ key := fun e => (hkey _ e).1 (by decide)
  rw [RemoveComments_no_semicolon key hsemi,
    TrimString_no_whitespace key (fun c hc => (hkey c hc).1),
    ← SplitString_eq_spec_tokens, SplitString_eq_filter, getlines_line ' ' key hsp hne]
  simp [hne]

/-- C9: a line that, after comment stripping and trimming, has the tokens
`k, t, ts...` (at least two maximal runs of non-space chars) makes the loop
body of `RegLoad` store the key `k` with the value `t ++ ts...`, the remaining
tokens joined with no separator. After a `RegLoad` of a file holding that line,
the key `k` is found with that value unless a later line stores `k` again.
`name value1 value2` gives `name` the value `value1value2`, and `a b c` gives
`a` the value `bc`. -/
theorem RegLoad_line_with_tokens (kv_pairs : StdMap) (line k t : StdString)
    (ts : List StdString)
    (htok : spec_tokens (TrimString (RemoveComments line)) = k :: t :: ts) :
    RegLoadLine kv_pairs line = kv_pairs.assign k (t :: ts).flatten ∧
    (∀ (fs : FileSystem) (prior : StdMap) (path pre term post d : StdString),
      fs path ≠ none →
      fs "config.txt".toList = some (pre ++ line ++ term ++ post) →
      (pre = [] ∨ ∃ p, pre = p ++ ['\n']) → '\n' ∉ line →
      (term = ['\n'] ∨ (term = [] ∧ post = [])) →
      (∀ l ∈ getlines '\n' post, ∀ key rest,
        spec_tokens (TrimString (RemoveComments l)) = key :: rest → rest ≠ [] → key ≠ k) →
      (RegGetString (RegLoad fs prior path).2 k d).1 = (t :: ts).flatten) ∧
    RegLoad (fun p => if p = "config.txt".toList then some "name value1 value2\n".toList else none)
      [] "config.txt".toList = (true, [("name".toList, "value1value2".toList)]) ∧
    RegLoad (fun p => if p = "config.txt".toList then some "a b c\n".toList else none)
      [] "config.txt".toList = (true, [("a".toList, "bc".toList)]) := by
  refine ⟨RegLoadLine_of_tokens kv_pairs line k t ts htok, ?_, by decide, by decide⟩
  intro fs prior path pre term post d hpath hcfg hpre hline hterm hpost
  have hne : line ≠ [] := by
    rintro rfl
    have hnil : spec_tokens (TrimString (RemoveComments [])) = [] := by decide
    rw [hnil] at htok
    exact absurd htok (by simp)
  have hterm' : term = ['\n'] ∨ (term = [] ∧ post = [] ∧ line ≠ []) := by
    rcases hterm with h | ⟨h1, h2⟩
    · exact Or.inl h
    · exact Or.inr ⟨h1, h2, hne⟩
  have hfind : ((RegLoad fs prior path).2).find k = some (t :: ts).flatten := by
    rw [RegLoad_of_exists fs prior path hpath]
    simp only [ifstream, hcfg]
    rw [getlines_around_line '\n' pre line term post hpre hline hterm', List.foldl_append,
      List.foldl_cons, find_foldl_RegLoadLine_other]
    · rw [RegLoadLine_of_tokens _ line k t ts htok, find_assign_self]
    · intro l hl key rest hkey hrest
      rw [SplitString_eq_spec_tokens] at hkey
      exact hpost l hl key rest hkey hrest
  simp only [RegGetString, hfind]

theorem RegLoad_line_with_tokens_witness :
    spec_tokens (TrimString (RemoveComments "  name value1  value2 ; note".toList)) =
      ["name".toList, "value1".toList, "value2".toList] ∧
    RegLoadLine [("name".toList, "old".toList)] "  name value1  value2 ; note".toList =
      [("name".toList, "value1value2".toList)] :=
  ⟨by decide,
    (RegLoad_line_with_tokens [("name".toList, "old".toList)]
      "  name value1  value2 ; note".toList "name".toList "value1".toList
      ["value2".toList] (by decide)).1.trans (by decide)⟩

/-- C11: evaluation at the failing input. With the text `abc`, or the empty
text, stored under a key, `RegGetFloat32` and `RegGetFloat64` end with the
exception `std::invalid_argument` thrown by `std::stof`/`std::stod`, whatever
the floating type and its conversion are; they do not return zero.
`RegGetInt32` on the same maps returns 0. -/
theorem RegGetFloat_throws_on_text {F : Type} (strto : StdString → F × Bool) (d : F) :
    (RegGetFloat32 (std_stof strto) [("x".toList, "abc".toList)] "x".toList d).1
      = Except.error StdException.invalid_argument ∧
    (RegGetFloat64 (std_stod strto) [("x".toList, "abc".toList)] "x".toList d).1
      = Except.error StdException.invalid_argument ∧
    (RegGetFloat32 (std_stof strto) (RegSetString [] "x".toList []) "x".toList d).1
      = Except.error StdException.invalid_argument ∧
    (RegGetFloat64 (std_stod strto) (RegSetString [] "x".toList []) "x".toList d).1
      = Except.error StdException.invalid_argument ∧
    (RegGetInt32 [("x".toList, "abc".toList)] "x".toList 7).1 = some 0 ∧
    (RegGetInt32 (RegSetString [] "x".toList []) "x".toList 7).1 = some 0 :=
  ⟨rfl, rfl, rfl, rfl, by decide, by decide⟩

/-- C15: a setter called with key `k` leaves the entry of every other key `k'`
as it was: `find` gives the same answer (absent, or present with the same
text) after the call as before, for each of the four setters. -/
theorem setters_keep_other_keys {F32 F64 : Type}
    (to_string_float : F32 → StdString) (to_string_double : F64 → StdString)
    (kv_pairs : StdMap) (k k' : StdString) (hne : k' ≠ k)
    (vs : StdString) (vi : Int) (vf : F32) (vd : F64) :
    (RegSetString kv_pairs k vs).find k' = kv_pairs.find k' ∧
    (RegSetInt32 kv_pairs k vi).find k' = kv_pairs.find k' ∧
    (RegSetFloat32 to_string_float kv_pairs k vf).find k' = kv_pairs.find k' ∧
    (RegSetFloat64 to_string_double kv_pairs k vd).find k' = kv_pairs.find k' :=
  ⟨find_assign_ne _ _ _ _ hne, find_assign_ne _ _ _ _ hne,
    find_assign_ne _ _ _ _ hne, find_assign_ne _ _ _ _ hne⟩

theorem setters_keep_other_keys_witness :
    "b".toList ≠ "c".toList ∧
    StdMap.find (RegSetString [("a".toList, "1".toList), ("b".toList, "2".toList)]
      "c".toList "3".toList) "b".toList = some "2".toList ∧
    StdMap.find (RegSetInt32 [("a".toList, "1".toList), ("b".toList, "2".toList)]
      "c".toList 3) "b".toList = some "2".toList :=
  ⟨by decide,
    (setters_keep_other_keys (fun n : Nat => Nat.toDigits 10 n) (fun n : Nat => Nat.toDigits 10 n)
      [("a".toList, "1".toList), ("b".toList, "2".toList)] "c".toList "b".toList (by decide)
      "3".toList 3 0 0).1.trans (by decide),
    (setters_keep_other_keys (fun n : Nat => Nat.toDigits 10 n) (fun n : Nat => Nat.toDigits 10 n)
      [("a".toList, "1".toList), ("b".toList, "2".toList)] "c".toList "b".toList (by decide)
      "3".toList 3 0 0).2.1.trans (by decide)⟩

/-- C18: when a file exists at the path and `config.txt` cannot be opened,
`RegLoad` still returns true and leaves the map empty, whatever it held. -/
theorem RegLoad_without_config_txt (fs : FileSystem) (kv_pairs : StdMap) (path : StdString)
    (hpath : fs path ≠ none) (hcfg : fs "config.txt".toList = none) :
    RegLoad fs kv_pairs path = (true, []) := by
  rw [RegLoad_of_exists fs kv_pairs path hpath]
  simp only [ifstream, hcfg]
  rfl

theorem RegLoad_without_config_txt_witness :
    (fun p => if p = "settings.txt".toList then some "a 1\n".toList else none : FileSystem)
      "settings.txt".toList ≠ none ∧
    (fun p => if p = "settings.txt".toList then some "a 1\n".toList else none : FileSystem)
      "config.txt".toList = none ∧
    RegLoad (fun p => if p = "settings.txt".toList then some "a 1\n".toList else none)
      [("x".toList, "9".toList)] "settings.txt".toList = (true, []) :=
  ⟨by decide, by decide, RegLoad_without_config_txt _ _ _ (by decide) (by decide)⟩

/-- C19: `RegSave` on an empty map performs no file operation: the files on
disk afterwards are those before, whether or not the path can be opened for
writing, so a file at the path keeps its contents and a missing one is not
created. -/
theorem RegSave_empty_map (can_write : StdString → Bool) (fs : Disk) (path : StdString) :
    RegSave can_write fs [] path = (fs, []) ∧
    (RegSave can_write fs [] path).1 path = fs path :=
  ⟨rfl, rfl⟩

/-- C20: no getter modifies the map: the map that each of the four getters
leaves behind is the map it was called on, whether the key has an entry or not;
a lookup of an absent key inserts nothing. -/
theorem getters_keep_map {F32 F64 : Type}
    (stof : StdString → Except StdException F32) (stod : StdString → Except StdException F64)
    (kv_pairs : StdMap) (k : StdString) (ds : StdString) (di : Int) (df : F32) (dd : F64) :
    (RegGetString kv_pairs k ds).2 = kv_pairs ∧
    (RegGetInt32 kv_pairs k di).2 = kv_pairs ∧
    (RegGetFloat32 stof kv_pairs k df).2 = kv_pairs ∧
    (RegGetFloat64 stod kv_pairs k dd).2 = kv_pairs ∧
    RegGetString [] k ds = (ds, []) ∧
    RegGetInt32 [] k di = (some di, []) := by
  refine ⟨?_, ?_, ?_, ?_, rfl, rfl⟩
  · unfold RegGetString
    cases kv_pairs.find k <;> rfl
  · unfold RegGetInt32
    cases kv_pairs.find k <;> rfl
  · unfold RegGetFloat32
    cases kv_pairs.find k <;> rfl
  · unfold RegGetFloat64
    cases kv_pairs.find k <;> rfl

/-! ### The order of the entries and `RegSave` -/

theorem mem_assign (key value : StdString) : ∀ (m : StdMap) (e : StdString × StdString),
    e ∈ StdMap.assign m key value → e.1 = key ∨ ∃ e' ∈ m, e'.1 = e.1 := by
  intro m
  induction m with
  | nil =>
    intro e he
    simp only [StdMap.assign, List.mem_singleton] at he
    left; rw [he]
  | cons a rest ih =>
    obtain ⟨k, v⟩ := a
    intro e he
    simp only [StdMap.assign] at he
    split_ifs at he with h1 h2
    · rcases List.mem_cons.mp he with rfl | he
      · right; exact ⟨(k, v), List.mem_cons_self _ _, rfl⟩
      · rcases ih e he with h | ⟨e', he', h⟩
        · left; exact h
        · right; exact ⟨e', List.mem_cons_of_mem _ he', h⟩
    · rcases List.mem_cons.mp he with rfl | he
      · left; rfl
      · right; exact ⟨e, he, rfl⟩
    · rcases List.mem_cons.mp he with rfl | he
      · right; exact ⟨(k, v), List.mem_cons_self _ _, rfl⟩
      · right; exact ⟨e, List.mem_cons_of_mem _ he, rfl⟩

theorem ordered_assign (key value : StdString) : ∀ (m : StdMap),
    m.ordered → (StdMap.assign m key value).ordered := by
  intro m
  induction m with
  | nil => intro _; simp [StdMap.assign, StdMap.ordered]
  | cons a rest ih =>
    obtain ⟨k, v⟩ := a
    intro h
    unfold StdMap.ordered at h ih ⊢
    rw [List.pairwise_cons] at h
    obtain ⟨hhead, hrest⟩ := h
    simp only [StdMap.assign]
    split_ifs with h1 h2
    · rw [List.pairwise_cons]
      refine ⟨?_, ih hrest⟩
      intro e he
      rcases mem_assign key value rest e he with h | ⟨e', he', h⟩
      · rw [h]; exact h1
      · rw [← h]; exact hhead e' he'
    · rw [List.pairwise_cons]
      refine ⟨?_, List.pairwise_cons.mpr ⟨hhead, hrest⟩⟩
      intro e he
      rcases List.mem_cons.mp he with rfl | he
      · exact h2
      · exact string_less_trans _ _ _ h2 (hhead e he)
    · rw [List.pairwise_cons]
      exact ⟨hhead, hrest⟩

theorem ordered_RegLoadLine (kv : StdMap) (line : StdString) (h : kv.ordered) :
    (RegLoadLine kv line).ordered := by
  unfold RegLoadLine
  simp only []
  split
  · exact ordered_assign _ _ kv h
  · exact h

theorem ordered_foldl_RegLoadLine (lines : List StdString) : ∀ (kv : StdMap),
    kv.ordered → (lines.foldl RegLoadLine kv).ordered := by
  induction lines with
  | nil => intro kv h; exact h
  | cons line lines ih =>
    intro kv h
    rw [List.foldl_cons]
    exact ih _ (ordered_RegLoadLine kv line h)

theorem filter_key_of_find (k v : StdString) : ∀ (m : StdMap), m.ordered →
    m.find k = some v → m.filter (fun e => decide (e.1 = k)) = [(k, v)] := by
  intro m
  induction m with
  | nil => intro _ h; simp [StdMap.find] at h
  | cons a rest ih =>
    obtain ⟨a, va⟩ := a
    intro hord hfind
    unfold StdMap.ordered at hord ih
    rw [List.pairwise_cons] at hord
    obtain ⟨hhead, hrest⟩ := hord
    simp only [StdMap.find] at hfind
    cases h1 : string_less a k with
    | true =>
      rw [h1] at hfind
      simp only [if_true] at hfind
      have hak : a ≠ k := by
        rintro rfl
        rw [string_less_irrefl] at h1
        exact absurd h1 (by decide)
      rw [List.filter_cons_of_neg (by simpa using hak)]
      exact ih hrest hfind
    | false =>
      rw [h1] at hfind
      cases h2 : string_less k a with
      | true =>
        rw [h2] at hfind
        simp at hfind
      | false =>
        rw [h2] at hfind
        simp only [Bool.false_eq_true, if_false, Option.some.injEq] at hfind
        have hak : a = k := string_less_total _ _ h1 h2
        subst hak hfind
        rw [List.filter_cons_of_pos (by simp)]
        have hnil : rest.filter (fun e => decide (e.1 = a)) = [] := by
          rw [List.filter_eq_nil_iff]
          intro e he
          have hlt := hhead e he
          simp only [decide_eq_true_eq]
          intro heq
          rw [heq, string_less_irrefl] at hlt
          exact absurd hlt (by decide)
        rw [hnil]

/-- C16: when the file read by `RegLoad` has several entry-producing lines with
the same key, the map afterwards holds exactly one entry for that key, with the
value of the last such line. Here `line` stores the key `k`, the lines before
it are arbitrary (they may store `k` too), and no line after it stores `k`.
`a 1`, `b 5`, `a 2` gives the map `a 2`, `b 5`. -/
theorem RegLoad_last_line_wins (fs : FileSystem) (kv_pairs : StdMap)
    (path pre line term post k t : StdString) (ts : List StdString)
    (hpath : fs path ≠ none)
    (hcfg : fs "config.txt".toList = some (pre ++ line ++ term ++ post))
    (hpre : pre = [] ∨ ∃ p, pre = p ++ ['\n']) (hline : '\n' ∉ line)
    (hterm : term = ['\n'] ∨ (term = [] ∧ post = []))
    (htok : spec_tokens (TrimString (RemoveComments line)) = k :: t :: ts)
    (hpost : ∀ l ∈ getlines '\n' post, ∀ key rest,
      spec_tokens (TrimString (RemoveComments l)) = key :: rest → rest ≠ [] → key ≠ k) :
    (RegLoad fs kv_pairs path).2.filter (fun e => decide (e.1 = k)) = [(k, (t :: ts).flatten)] ∧
    (RegLoad fs kv_pairs path).2.find k = some (t :: ts).flatten ∧
    (RegLoad fs kv_pairs path).2.ordered ∧
    RegLoad (fun p => if p = "config.txt".toList then some "a 1\nb 5\na 2\n".toList else none)
      [] "config.txt".toList = (true, [("a".toList, "2".toList), ("b".toList, "5".toList)]) := by
  have hne : line ≠ [] := by
    rintro rfl
    have hnil : spec_tokens (TrimString (RemoveComments [])) = [] := by decide
    rw [hnil] at htok
    exact absurd htok (by simp)
  have hterm' : term = ['\n'] ∨ (term = [] ∧ post = [] ∧ line ≠ []) := by
    rcases hterm with h | ⟨h1, h2⟩
    · exact Or.inl h
    · exact Or.inr ⟨h1, h2, hne⟩
  have hord : ((RegLoad fs kv_pairs path).2).ordered := by
    rw [RegLoad_of_exists fs kv_pairs path hpath]
    exact ordered_foldl_RegLoadLine _ [] (by simp [StdMap.ordered])
  have hfind : ((RegLoad fs kv_pairs path).2).find k = some (t :: ts).flatten := by
    rw [RegLoad_of_exists fs kv_pairs path hpath]
    simp only [ifstream, hcfg]
    rw [getlines_around_line '\n' pre line term post hpre hline hterm', List.foldl_append,
      List.foldl_cons, find_foldl_RegLoadLine_other]
    · rw [RegLoadLine_of_tokens _ line k t ts htok, find_assign_self]
    · intro l hl key rest hkey hrest
      rw [SplitString_eq_spec_tokens] at hkey
      exact hpost l hl key rest hkey hrest
  exact ⟨filter_key_of_find k _ _ hord hfind, hfind, hord, by decide⟩

theorem RegLoad_last_line_wins_witness :
    (RegLoad (fun p => if p = "config.txt".toList
        then some ("a 1\nb 5\n".toList ++ "a 2".toList ++ ['\n'] ++ "c 3\n".toList) else none)
      [("x".toList, "9".toList)] "config.txt".toList).2.filter
        (fun e => decide (e.1 = "a".toList)) = [("a".toList, "2".toList)] :=
  (RegLoad_last_line_wins _ [("x".toList, "9".toList)] "config.txt".toList
    "a 1\nb 5\n".toList "a 2".toList ['\n'] "c 3\n".toList "a".toList "2".toList []
    (by decide) (by decide) (Or.inr ⟨"a 1\nb 5".toList, by decide⟩) (by decide) (Or.inl rfl)
    (by decide)
    (by
      intro l hl key rest hkey _
      have hls : getlines '\n' "c 3\n".toList = ["c 3".toList] := by decide
      rw [hls, List.mem_singleton] at hl
      subst hl
      have htoks : spec_tokens (TrimString (RemoveComments "c 3".toList)) =
          ["c".toList, "3".toList] := by decide
      rw [htoks] at hkey
      injection hkey with h1 _
      rw [← h1]
      decide)).1

/-! ### Save, then load -/

end Registry
